import Mathlib

/-!
# Verification of the `ccx` cascading-context library

A shallow embedding of `ccx.go` (package `ccx`): a tree of cancellable
nodes with intent metadata, an id-based lineage registry, deadline
clamping at derivation, scoped cancel/adjust propagation, and the
wait helpers.

Modelling conventions:
* Go `time.Time` deadlines become `Option Nat` (`none` models the zero
  time, i.e. `IsZero() == true`; `t.After(u)` is `u < t` on the values).
* Go `error` values become `Option String` (`none` is a nil error).
* Node ids (random hex strings in Go, unique with negligible collision
  probability) become `Nat`s drawn from a fresh counter; the empty
  parent id of a root becomes `none : Option Nat`.
* Go `map[string]any` is a reference type: a `*Ctx` and any snapshot of
  its `Intent` share the same underlying map.  We model map values as
  `String`, map contents as association lists (`PMap`), and references
  as indices into an explicit heap `List PMap` carried in the system
  state, so that aliasing behaves as in Go.  A `none` reference models
  a nil map.
* The embedded `context.Context` of a node (its "underlying" or "base"
  completion signal, distinct from `doneCh`) is modelled by a
  per-node `cancelCalled` flag set by the release handle returned from
  `WithIntent`, plus the cascade along parent links; `baseFired`
  computes whether the base signal of a node has fired.  Deadline
  expiry of the base signal is not given a clock here: `baseFired`
  under-approximates the set of fired signals, which is sound for
  exhibiting a run in which a base signal has fired.
* `sync.Mutex`-guarded method bodies are atomic state transformers;
  claims are settled over sequential runs, which every interleaving of
  the lock-atomic sections refines.
-/

namespace Ccx

/-- A Go `error` value: `none` is nil. -/
abbrev Err := Option String

/-- Contents of a Go `map[string]any` with `String`ly-typed values. -/
abbrev PMap := List (String × String)

/-- Go map assignment `m[k] = v`: replace the binding for `k` if present,
otherwise append it. -/
def mapSet (m : PMap) (k v : String) : PMap :=
  match m with
  | [] => [(k, v)]
  | (k', v') :: rest =>
    if k' = k then (k', v) :: rest else (k', v') :: mapSet rest k v

/-- Go map read `m[k]`. -/
def mapGet (m : PMap) (k : String) : Option String :=
  match m with
  | [] => none
  | (k', v') :: rest => if k' = k then some v' else mapGet rest k

/-- A reference to a Go map: `none` is a nil map, `some i` points at
heap cell `i`. -/
abbrev MapRef := Option Nat

/-- Read the map behind a reference; a nil map reads as empty. -/
def heapGet (h : List PMap) (r : MapRef) : PMap :=
  match r with
  | none => []
  | some i => h.getD i []

/-- Mutate the heap cell at index `i` in place (a Go map write through a
shared reference). -/
def heapWrite (h : List PMap) (i : Nat) (f : PMap → PMap) : List PMap :=
  h.set i (f (h.getD i []))

/-- `Intent` from `ccx.go`: a name and a (reference to a) parameter map. -/
structure Intent where
  name : String
  params : MapRef
  deriving DecidableEq, Repr

/-- `Constraints` from `ccx.go`: only an optional absolute deadline.
`none` models the zero `time.Time`. -/
structure Constraints where
  deadline : Option Nat
  deriving DecidableEq, Repr

/-- `Scope` from `ccx.go` is `type Scope int`; any integer is a `Scope`. -/
abbrev Scope := Int

/-- `ScopeNode Scope = iota` -/
def ScopeNode : Scope := 0

/-- `ScopeSubtree` -/
def ScopeSubtree : Scope := 1

/-- `ScopeRoot` -/
def ScopeRoot : Scope := 2

/-- Node id (Go: random hex string; here a counter value). -/
abbrev Id := Nat

/-- The mutable fields of a `Ctx` node, plus `cancelCalled`, which
records that the release handle returned by `WithIntent` (the
`context.CancelFunc` cancelling the node's base context) was invoked. -/
structure Node where
  id : Id
  parentID : Option Id
  intent : Intent
  cons : Constraints
  state : String
  doneCh : Bool
  err : Err
  children : List Id
  cancelCalled : Bool
  deriving DecidableEq, Repr

/-- The whole in-process state: the map heap, the lineage registry
(`var reg sync.Map`, id → node) in registration order, and the id
counter. -/
structure Sys where
  heap : List PMap
  reg : List Node
  nextId : Nat
  deriving DecidableEq, Repr

/-- The empty process state. -/
def sysInit : Sys := { heap := [], reg := [], nextId := 0 }

/-- Registry lookup, `get(id)` in `ccx.go`. -/
def getNode (s : Sys) (id : Id) : Option Node :=
  s.reg.find? (fun n => n.id = id)

/-- Update the node with the given id in place (mutation through the
`*Ctx` pointer in Go). -/
def updateNode (s : Sys) (id : Id) (f : Node → Node) : Sys :=
  { s with reg := s.reg.map (fun n => if n.id = id then f n else n) }

/-- `(c *Ctx) State()`. -/
def stateOf (s : Sys) (id : Id) : String :=
  ((getNode s id).map Node.state).getD ""

/-- `(c *Ctx) ErrState()`: the abort error, nil otherwise. -/
def errOf (s : Sys) (id : Id) : Err :=
  ((getNode s id).map Node.err).getD none

/-- Whether `DoneChan()` has been closed. -/
def doneClosedOf (s : Sys) (id : Id) : Bool :=
  ((getNode s id).map Node.doneCh).getD false

/-- `(c *Ctx) Intent()`: a snapshot of the `Intent` struct.  Note that
the snapshot shares the `params` map reference with the node, exactly
as a Go struct copy shares its map field. -/
def intentOf (s : Sys) (id : Id) : Intent :=
  ((getNode s id).map Node.intent).getD { name := "", params := none }

/-- The parameter map contents a node currently observes. -/
def paramsOf (s : Sys) (id : Id) : PMap :=
  heapGet s.heap (intentOf s id).params

/-- `(c *Ctx) Fulfill()` on the node value: mark done and close
`doneCh` if still active, else a no-op. -/
def fulfillNode (n : Node) : Node :=
  if n.state = "active" then { n with state := "done", doneCh := true } else n

/-- `(c *Ctx) Abort(err)` on the node value: mark aborted, record the
error and close `doneCh` if still active, else a no-op. -/
def abortNode (e : Err) (n : Node) : Node :=
  if n.state = "active" then { n with state := "aborted", err := e, doneCh := true } else n

/-- `Fulfill` acting on the system state. -/
def fulfillSys (s : Sys) (id : Id) : Sys := updateNode s id fulfillNode

/-- `Abort` acting on the system state. -/
def abortSys (s : Sys) (id : Id) (e : Err) : Sys := updateNode s id (abortNode e)

/-- `clampChild(p, c)` from `ccx.go`: if the parent has a deadline and
the child has none or a strictly later one, the child gets the
parent's deadline; otherwise the child's constraints are unchanged. -/
def clampChild (p c : Constraints) : Constraints :=
  match p.deadline with
  | none => c
  | some pd =>
    match c.deadline with
    | none => { c with deadline := some pd }
    | some cd => if pd < cd then { c with deadline := some pd } else c

/-- `Background()`: wrap a fresh root node (no parent, empty intent,
nil params, no deadline) and register it. -/
def Background (s : Sys) : Sys × Id :=
  let id := s.nextId
  let n : Node :=
    { id := id, parentID := none, intent := { name := "", params := none },
      cons := { deadline := none }, state := "active", doneCh := false,
      err := none, children := [], cancelCalled := false }
  ({ s with reg := s.reg ++ [n], nextId := id + 1 }, id)

/-- `WithIntent(parent, intent, cons)`.  The caller passes the intent's
name and a map literal (`none` for a nil `Params`); a `some` literal is
allocated on the heap at the call, as a Go composite literal is.  A nil
parent pointer makes the Go code panic at `parent.cons` with a nil
pointer dereference before any node is created; the panic is modelled
as `Except.error`. -/
def WithIntent (s : Sys) (parent : Option Id) (name : String)
    (params : Option PMap) (cons : Constraints) : Except String (Sys × Id) :=
  match parent with
  | none => .error "runtime error: invalid memory address or nil pointer dereference"
  | some pid =>
    match getNode s pid with
    | none => .error "dangling parent pointer"
    | some p =>
      let cons := clampChild p.cons cons
      let al : List PMap × MapRef :=
        match params with
        | none => (s.heap, none)
        | some m => (s.heap ++ [m], some s.heap.length)
      let cid := s.nextId
      let child : Node :=
        { id := cid, parentID := some pid, intent := { name := name, params := al.2 },
          cons := cons, state := "active", doneCh := false, err := none,
          children := [], cancelCalled := false }
      let s1 : Sys := { heap := al.1, reg := s.reg ++ [child], nextId := cid + 1 }
      let s2 := updateNode s1 pid (fun n => { n with children := n.children ++ [cid] })
      .ok (s2, cid)

/-- Invoking the release handle (`context.CancelFunc`) returned by
`WithIntent` for this node: it cancels the node's base context and
touches nothing else. -/
def cancelHandle (s : Sys) (id : Id) : Sys :=
  updateNode s id (fun n => { n with cancelCalled := true })

/-- Whether a node's base context (`c.Context`) has fired: its own
release handle was invoked, or an ancestor's was (Go contexts cascade
cancellation downward).  Fuel bounds the ancestor walk. -/
def baseFiredFuel : Nat → Sys → Id → Bool
  | 0, _, _ => false
  | fuel + 1, s, id =>
    match getNode s id with
    | none => false
    | some n =>
      n.cancelCalled ||
        match n.parentID with
        | none => false
        | some pid => baseFiredFuel fuel s pid

/-- Whether a node's base context has fired. -/
def baseFired (s : Sys) (id : Id) : Bool :=
  baseFiredFuel s.reg.length s id

/-- `(c *Ctx) Children()`: snapshot the child-id list and resolve each
id through the registry, silently skipping unresolvable ids. -/
def childrenOf (s : Sys) (id : Id) : List Id :=
  match getNode s id with
  | none => []
  | some n => n.children.filter (fun cid => (getNode s cid).isSome)

/-- `(c *Ctx) Root()`: walk `parentID` links until empty.  Fuel bounds
the walk (the registry is acyclic in every reachable state). -/
def rootOfFuel : Nat → Sys → Id → Id
  | 0, _, id => id
  | fuel + 1, s, id =>
    match getNode s id with
    | none => id
    | some n =>
      match n.parentID with
      | none => id
      | some pid => rootOfFuel fuel s pid

/-- `(c *Ctx) Root()` with fuel the registry size. -/
def rootOf (s : Sys) (id : Id) : Id := rootOfFuel s.reg.length s id

/-- `abortRecursive(reason)`: abort this node if still active, then
recurse into a snapshot of its current children. -/
def abortRecursiveFuel : Nat → Sys → Id → Err → Sys
  | 0, s, _, _ => s
  | fuel + 1, s, id, reason =>
    let s1 := if stateOf s id = "active" then abortSys s id reason else s
    (childrenOf s1 id).foldl (fun acc cid => abortRecursiveFuel fuel acc cid reason) s1

/-- `(c *Ctx) SendCancel(scope, reason)`: switch on the scope; any
scope other than the three named constants falls through the switch and
does nothing. -/
def SendCancel (s : Sys) (id : Id) (scope : Scope) (reason : Err) : Sys :=
  if scope = ScopeNode then abortSys s id reason
  else if scope = ScopeSubtree then abortRecursiveFuel s.reg.length s id reason
  else if scope = ScopeRoot then abortRecursiveFuel s.reg.length s (rootOf s id) reason
  else s

/-- `applyAdjust(fn)`: under the node's lock, initialize the params map
if nil, then let `fn` mutate it in place. -/
def applyAdjust (s : Sys) (id : Id) (fn : PMap → PMap) : Sys :=
  match getNode s id with
  | none => s
  | some n =>
    match n.intent.params with
    | some i => { s with heap := heapWrite s.heap i fn }
    | none =>
      let i := s.heap.length
      let s1 : Sys := { s with heap := s.heap ++ [[]] }
      let s2 := updateNode s1 id
        (fun m => { m with intent := { m.intent with params := some i } })
      { s2 with heap := heapWrite s2.heap i fn }

/-- `adjustRecursive(fn)`: apply to this node, then recurse into a
snapshot of its current children. -/
def adjustRecursiveFuel : Nat → Sys → Id → (PMap → PMap) → Sys
  | 0, s, _, _ => s
  | fuel + 1, s, id, fn =>
    let s1 := applyAdjust s id fn
    (childrenOf s1 id).foldl (fun acc cid => adjustRecursiveFuel fuel acc cid fn) s1

/-- `(c *Ctx) SendAdjust(scope, fn)`: switch on the scope; any scope
other than the three named constants falls through and does nothing. -/
def SendAdjust (s : Sys) (id : Id) (scope : Scope) (fn : PMap → PMap) : Sys :=
  if scope = ScopeNode then applyAdjust s id fn
  else if scope = ScopeSubtree then adjustRecursiveFuel s.reg.length s id fn
  else if scope = ScopeRoot then adjustRecursiveFuel s.reg.length s (rootOf s id) fn
  else s

/-- `WaitAll(ctx, nodes...)` observed against a fixed system state, with
the caller's context `context.Background()` (never done, as in the
repository's tests), so the `ctx.Done()` branch of the select is never
taken.  Result `none`: WaitAll is still blocked on some node whose
completion signal has not fired.  Result `some r`: WaitAll returns the
Go error value `r` (`some none` is a nil return). -/
def WaitAll (nodes : List Node) : Option Err :=
  match nodes with
  | [] => some none
  | n :: rest =>
    if n.doneCh then
      match n.err with
      | some e => some (some e)
      | none => WaitAll rest
    else none

/-- `policyNode.Params()`: `p.n.Intent().Params` — the `Intent()`
snapshot's map reference, which aliases the node's live map. -/
def policyNodeParams (s : Sys) (id : Id) : MapRef :=
  (intentOf s id).params

/-- A terminal-operation call on a single node: `Fulfill()` or
`Abort(err)`. -/
inductive TermOp where
  | fulfill : TermOp
  | abort : Err → TermOp
  deriving DecidableEq, Repr

/-- Apply one terminal call to a node value. -/
def applyTermOp (n : Node) : TermOp → Node
  | .fulfill => fulfillNode n
  | .abort e => abortNode e n

/-- The effective constraints along a chain of `WithIntent` derivations
below an ancestor with constraints `a`: each element is the post-clamp
constraints of the next descendant, which in turn clamps its child. -/
def chainCons (a : Constraints) : List Constraints → List Constraints
  | [] => []
  | c :: rest => clampChild a c :: chainCons (clampChild a c) rest

/-- A three-level tree root→A→B built exactly as the repository's tests
do: a `Background` root, then two `WithIntent` derivations with no
deadline and the given intent names and params literals. -/
structure Tree3 where
  sys : Sys
  root : Id
  a : Id
  b : Id

/-- Build the three-level tree root→A→B. -/
def mkTree3 (na nb : String) (pa pb : Option PMap) : Tree3 :=
  let r := Background sysInit
  match WithIntent r.1 (some r.2) na pa { deadline := none } with
  | .error _ => { sys := r.1, root := r.2, a := r.2, b := r.2 }
  | .ok sa =>
    match WithIntent sa.1 (some sa.2) nb pb { deadline := none } with
    | .error _ => { sys := sa.1, root := r.2, a := sa.2, b := sa.2 }
    | .ok sb => { sys := sb.1, root := r.2, a := sa.2, b := sb.2 }

/- ## Helper lemmas -/

/-- A terminal call on a non-active node is a no-op. -/
theorem applyTermOp_of_not_active (n : Node) (op : TermOp)
    (h : ¬ n.state = "active") : applyTermOp n op = n := by
  cases op with
  | fulfill => simp [applyTermOp, fulfillNode, h]
  | abort e => simp [applyTermOp, abortNode, h]

/-- After any terminal call, the node is no longer active. -/
theorem applyTermOp_not_active (n : Node) (op : TermOp) :
    ¬ (applyTermOp n op).state = "active" := by
  cases op with
  | fulfill =>
    simp only [applyTermOp, fulfillNode]
    split
    · simp
    · assumption
  | abort e =>
    simp only [applyTermOp, abortNode]
    split
    · simp
    · assumption

/-- A sequence of terminal calls on a non-active node is a no-op. -/
theorem foldl_applyTermOp_of_not_active (ops : List TermOp) (n : Node)
    (h : ¬ n.state = "active") : ops.foldl applyTermOp n = n := by
  induction ops with
  | nil => rfl
  | cons op rest ih =>
    simp only [List.foldl_cons, applyTermOp_of_not_active n op h]
    exact ih

/-- With a parent deadline present, the clamped deadline exists and is
at most the parent's. -/
theorem clampChild_deadline_le (p c : Constraints) (pd : Nat)
    (hp : p.deadline = some pd) :
    ∃ d, (clampChild p c).deadline = some d ∧ d ≤ pd := by
  cases hc : c.deadline with
  | none =>
    refine ⟨pd, ?_, le_refl pd⟩
    simp [clampChild, hp, hc]
  | some cd =>
    by_cases hlt : pd < cd
    · refine ⟨pd, ?_, le_refl pd⟩
      simp [clampChild, hp, hc, hlt]
    · refine ⟨cd, ?_, le_of_not_lt hlt⟩
      simp [clampChild, hp, hc, hlt]

/-- Every effective deadline along a chain below an ancestor whose
deadline is `D` stays at most `D`. -/
theorem chainCons_deadline_le (a : Constraints) (D : Nat) (reqs : List Constraints)
    (ha : a.deadline = some D) :
    ∀ e ∈ chainCons a reqs, ∃ d, e.deadline = some d ∧ d ≤ D := by
  induction reqs generalizing a D with
  | nil => intro e he; cases he
  | cons c rest ih =>
    intro e he
    obtain ⟨d1, hd1, hle1⟩ := clampChild_deadline_le a c D ha
    rcases List.mem_cons.mp he with rfl | htail
    · exact ⟨d1, hd1, hle1⟩
    · obtain ⟨d, hd, hle⟩ := ih (clampChild a c) d1 hd1 e htail
      exact ⟨d, hd, le_trans hle hle1⟩

/-- The freshly appended child survives the parent's children-list
update with its id and constraints intact. -/
theorem exists_mem_update_append (l : List Node) (c : Node) (pid cid2 : Id) :
    ∃ n ∈ (l ++ [c]).map
        (fun n => if n.id = pid then { n with children := n.children ++ [cid2] } else n),
      n.id = c.id ∧ n.cons = c.cons := by
  refine ⟨_, List.mem_map_of_mem
    (fun n => if n.id = pid then { n with children := n.children ++ [cid2] } else n)
    (List.mem_append_right l (by simp : c ∈ [c])), ?_, ?_⟩
  · show (if c.id = pid then { c with children := c.children ++ [cid2] } else c).id = c.id
    split <;> rfl
  · show (if c.id = pid then { c with children := c.children ++ [cid2] } else c).cons = c.cons
    split <;> rfl

/-- A successful `WithIntent` stores the clamped constraints on the new
child node. -/
theorem withIntent_cons_clamped (s : Sys) (pid : Id) (name : String)
    (params : Option PMap) (cons : Constraints) (s' : Sys) (cid : Id)
    (h : WithIntent s (some pid) name params cons = .ok (s', cid)) :
    ∃ p, getNode s pid = some p ∧
      ∃ n ∈ s'.reg, n.id = cid ∧ n.cons = clampChild p.cons cons := by
  cases hp : getNode s pid with
  | none => simp [WithIntent, hp] at h
  | some p =>
    simp only [WithIntent, hp, Except.ok.injEq, Prod.mk.injEq] at h
    obtain ⟨hs, hcid⟩ := h
    refine ⟨p, rfl, ?_⟩
    subst hs
    subst hcid
    simp only [updateNode]
    exact exists_mem_update_append _ _ _ _

/- ## Claim theorems -/

/-- C2: along any chain of derivations below an ancestor whose
constraints carry deadline `D`, every descendant's effective
(post-clamp) deadline is at most `D`.  Locally, if the parent has a
deadline and the child requests none or a strictly later one, the
child's effective deadline becomes the parent's; otherwise the child's
requested constraints are used unchanged.  `WithIntent` stores exactly
the clamped constraints on the new child. -/
theorem C2_deadline_clamp :
    (∀ (a : Constraints) (D : Nat) (reqs : List Constraints), a.deadline = some D →
      ∀ e ∈ chainCons a reqs, ∃ d, e.deadline = some d ∧ d ≤ D)
    ∧ (∀ p c pd, p.deadline = some pd → c.deadline = none →
        (clampChild p c).deadline = some pd)
    ∧ (∀ p c pd cd, p.deadline = some pd → c.deadline = some cd → pd < cd →
        (clampChild p c).deadline = some pd)
    ∧ (∀ p c pd cd, p.deadline = some pd → c.deadline = some cd → ¬ pd < cd →
        clampChild p c = c)
    ∧ (∀ p c, p.deadline = none → clampChild p c = c)
    ∧ (∀ s pid name params cons s' cid,
        WithIntent s (some pid) name params cons = .ok (s', cid) →
        ∃ p, getNode s pid = some p ∧
          ∃ n ∈ s'.reg, n.id = cid ∧ n.cons = clampChild p.cons cons) := by
  refine ⟨chainCons_deadline_le, ?_, ?_, ?_, ?_, withIntent_cons_clamped⟩
  · intro p c pd hp hc
    simp [clampChild, hp, hc]
  · intro p c pd cd hp hc hlt
    simp [clampChild, hp, hc, hlt]
  · intro p c pd cd hp hc hlt
    simp [clampChild, hp, hc, hlt]
  · intro p c hp
    simp [clampChild, hp]

/-- Witness for C2 at concrete deadlines: a child with no requested
deadline inherits the parent's deadline 7; a child requesting 3 under a
parent deadline of 7 keeps its own constraints. -/
theorem C2_deadline_clamp_witness :
    (clampChild { deadline := some 7 } { deadline := none }).deadline = some 7
    ∧ clampChild { deadline := some 7 } { deadline := some 3 } = { deadline := some 3 } :=
  ⟨C2_deadline_clamp.2.1 { deadline := some 7 } { deadline := none } 7 rfl rfl,
   C2_deadline_clamp.2.2.2.1 { deadline := some 7 } { deadline := some 3 } 7 3 rfl rfl
     (by decide)⟩

/-- C3: the terminal operations are idempotent and first-wins — after
any sequence of `Fulfill`/`Abort` calls on a node, the state and error
equal the state and error immediately after the first call. -/
theorem C3_terminal_first_wins (n : Node) (op : TermOp) (ops : List TermOp) :
    (ops.foldl applyTermOp (applyTermOp n op)).state = (applyTermOp n op).state
    ∧ (ops.foldl applyTermOp (applyTermOp n op)).err = (applyTermOp n op).err := by
  rw [foldl_applyTermOp_of_not_active ops (applyTermOp n op) (applyTermOp_not_active n op)]
  exact ⟨rfl, rfl⟩

/-- C8: derivation with a nil parent fails fast — `WithIntent` with a
nil parent signals the error immediately (the Go code dereferences the
nil pointer at `parent.cons` and panics before creating anything) and
never returns a node. -/
theorem C8_nil_parent_fails_fast (s : Sys) (name : String)
    (params : Option PMap) (cons : Constraints) :
    WithIntent s none name params cons =
      .error "runtime error: invalid memory address or nil pointer dereference"
    ∧ (WithIntent s none name params cons).isOk = false :=
  ⟨rfl, rfl⟩

/-- Reading back a key just written into an empty Go map. -/
theorem mapGet_mapSet_nil (k v : String) : mapGet (mapSet [] k v) k = some v := by
  simp [mapSet, mapGet]

set_option maxHeartbeats 2000000 in
/-- C4: on a three-level tree root→A→B with all nodes active,
`SendCancel` on A with `Subtree` scope and reason `e` leaves root's
state "active", sets both A's and B's state to "aborted" with error
`e`, and closes both A's and B's completion channels. -/
theorem C4_subtree_cancel (e : Err) (na nb : String) :
    let t := mkTree3 na nb none none
    let s := SendCancel t.sys t.a ScopeSubtree e
    stateOf s t.root = "active"
    ∧ stateOf s t.a = "aborted" ∧ stateOf s t.b = "aborted"
    ∧ errOf s t.a = e ∧ errOf s t.b = e
    ∧ doneClosedOf s t.a = true ∧ doneClosedOf s t.b = true
    ∧ errOf s t.root = none ∧ doneClosedOf s t.root = false :=
  ⟨rfl, rfl, rfl, rfl, rfl, rfl, rfl, rfl, rfl⟩

/-- The root→A(params={})→B(params={}) tree of the C6 scenario. -/
def adjTree (na nb : String) : Tree3 := mkTree3 na nb (some []) (some [])

/-- The C6 tree after `SendAdjust(A, Subtree, set params k to v)`. -/
def adjAfter (k v na nb : String) : Sys :=
  SendAdjust (adjTree na nb).sys (adjTree na nb).a ScopeSubtree (fun m => mapSet m k v)

/-- A root→A(nil params)→B(nil params) tree after the same adjust,
exercising the initialize-if-absent path of `applyAdjust`. -/
def adjAfterNil (k v na nb : String) : Sys :=
  SendAdjust (mkTree3 na nb none none).sys (mkTree3 na nb none none).a ScopeSubtree
    (fun m => mapSet m k v)

set_option maxHeartbeats 4000000 in
/-- C6: on a three-level tree root→A(params={})→B(params={}),
`SendAdjust` on A with `Subtree` scope and a mutator setting
`params[k] = v` makes both A and B observe `params[k] == v` while
root's params are untouched; on nodes whose params map is nil, the
params container is first initialized and the mutation still lands. -/
theorem C6_subtree_adjust (k v na nb : String) :
    mapGet (paramsOf (adjAfter k v na nb) (adjTree na nb).a) k = some v
    ∧ mapGet (paramsOf (adjAfter k v na nb) (adjTree na nb).b) k = some v
    ∧ paramsOf (adjAfter k v na nb) (adjTree na nb).root = []
    ∧ (intentOf (adjAfter k v na nb) (adjTree na nb).root).params = none
    ∧ mapGet (paramsOf (adjAfterNil k v na nb) (mkTree3 na nb none none).a) k = some v
    ∧ mapGet (paramsOf (adjAfterNil k v na nb) (mkTree3 na nb none none).b) k = some v :=
  ⟨mapGet_mapSet_nil k v, mapGet_mapSet_nil k v, rfl, rfl,
   mapGet_mapSet_nil k v, mapGet_mapSet_nil k v⟩

/-- The tree for the C7 failing input: A is created with params `{}`,
so its params map lives at heap cell 0. -/
def leakTree : Tree3 := mkTree3 "A" "B" (some []) none

/-- The C7 system after writing `m["x"] = "y"` into the map `m`
returned by the read-only policy view of A (`policyNode.Params()`),
which is heap cell 0. -/
def leakAfter : Sys :=
  { leakTree.sys with heap := heapWrite leakTree.sys.heap 0 (fun m => mapSet m "x" "y") }

/-- C7 evaluated at the failing input: node A is created with an empty
params map; the read-only policy view's `Params()` hands back the
node's live map reference, so writing `m["x"] = "y"` into the returned
map changes what A itself observes via `Intent().Params` — the view
does grant mutation capability, contradicting its own read-only
contract. -/
theorem C7_params_leak :
    policyNodeParams leakTree.sys leakTree.a = some 0
    ∧ mapGet (paramsOf leakTree.sys leakTree.a) "x" = none
    ∧ mapGet (paramsOf leakAfter leakTree.a) "x" = some "y" := by
  decide

/-- Run for the C1 counterexample: derive one child from a fresh root
and invoke the child's release handle (the `context.CancelFunc`
returned by `WithIntent`). -/
def c1Run : Sys × Id :=
  let r := Background sysInit
  match WithIntent r.1 (some r.2) "child" none { deadline := none } with
  | .error _ => r
  | .ok p => (cancelHandle p.1 p.2, p.2)

/-- C1 counterexample: after the child's release handle is invoked, the
child's underlying base signal has fired while its `state` is still
"active" and its completion channel is not closed — so there is a code
path (release-handle cancellation) that fires the underlying signal and
leaves the node's `state` "active", contrary to the claim. -/
theorem C1_counterexample :
    baseFired c1Run.1 c1Run.2 = true
    ∧ stateOf c1Run.1 c1Run.2 = "active"
    ∧ doneClosedOf c1Run.1 c1Run.2 = false := by
  decide

/-- A node whose completion signal has fired without an error. -/
def nodeDoneOk (n : Node) : Bool := n.doneCh && n.err == none

/-- C5: `WaitAll` joins the given nodes in list order; when a node has
completed with a non-nil abort error, that exact error value is the
result, whatever the later nodes in the list look like (they are not
waited on); when every node has completed without carrying an error,
the result is nil. -/
theorem C5_waitall_order_and_error :
    (∀ (pre : List Node) (n : Node) (post : List Node) (e : String),
      pre.all nodeDoneOk = true → n.doneCh = true → n.err = some e →
      WaitAll (pre ++ n :: post) = some (some e))
    ∧ (∀ nodes : List Node, nodes.all nodeDoneOk = true → WaitAll nodes = some none) := by
  constructor
  · intro pre n post e hpre hdone herr
    induction pre with
    | nil => simp [WaitAll, hdone, herr]
    | cons m rest ih =>
      simp only [List.all_cons, Bool.and_eq_true] at hpre
      obtain ⟨hm, hrest⟩ := hpre
      simp only [nodeDoneOk, Bool.and_eq_true, beq_iff_eq] at hm
      simp only [List.cons_append, WaitAll, hm.1, hm.2, if_true]
      exact ih hrest
  · intro nodes hall
    induction nodes with
    | nil => rfl
    | cons m rest ih =>
      simp only [List.all_cons, Bool.and_eq_true] at hall
      obtain ⟨hm, hrest⟩ := hall
      simp only [nodeDoneOk, Bool.and_eq_true, beq_iff_eq] at hm
      simp only [WaitAll, hm.1, hm.2, if_true]
      exact ih hrest

/-- A fulfilled sample node. -/
def sampleDone : Node :=
  { id := 0, parentID := none, intent := { name := "", params := none },
    cons := { deadline := none }, state := "done", doneCh := true,
    err := none, children := [], cancelCalled := false }

/-- An aborted sample node carrying the error "boom". -/
def sampleAborted : Node := { sampleDone with state := "aborted", err := some "boom" }

/-- A still-active sample node. -/
def sampleActive : Node := { sampleDone with state := "active", doneCh := false }

/-- Witness for C5: with a fulfilled node, then a node aborted with
"boom", then a still-pending node, `WaitAll` returns exactly "boom";
over the fulfilled node alone it returns nil. -/
theorem C5_waitall_order_and_error_witness :
    WaitAll ([sampleDone] ++ sampleAborted :: [sampleActive]) = some (some "boom")
    ∧ WaitAll [sampleDone] = some none :=
  ⟨C5_waitall_order_and_error.1 [sampleDone] sampleAborted [sampleActive] "boom"
      (by decide) (by decide) (by decide),
   C5_waitall_order_and_error.2 [sampleDone] (by decide)⟩

/-- C9: aborting an active node (whose error is still nil, as in every
reachable active state) with a nil reason marks it "aborted" while
`ErrState` stays nil, `WaitAll` over it returns nil, and on the
`ErrState` and `WaitAll` observables the nil-reason abort is
indistinguishable from a `Fulfill`. -/
theorem C9_nil_abort (n : Node) (h : n.state = "active") (herr : n.err = none) :
    (abortNode none n).state = "aborted"
    ∧ (abortNode none n).err = none
    ∧ WaitAll [abortNode none n] = some none
    ∧ (abortNode none n).err = (fulfillNode n).err
    ∧ WaitAll [abortNode none n] = WaitAll [fulfillNode n] := by
  refine ⟨?_, ?_, ?_, ?_, ?_⟩ <;> simp [abortNode, fulfillNode, WaitAll, h, herr]

/-- Witness for C9 on a concrete active node. -/
theorem C9_nil_abort_witness :
    (abortNode none sampleActive).state = "aborted"
    ∧ (abortNode none sampleActive).err = none
    ∧ WaitAll [abortNode none sampleActive] = some none
    ∧ (abortNode none sampleActive).err = (fulfillNode sampleActive).err
    ∧ WaitAll [abortNode none sampleActive] = WaitAll [fulfillNode sampleActive] :=
  C9_nil_abort sampleActive (by decide) (by decide)

/-- C10: for any scope value other than the three named constants
(`Scope` is an integer type, so such values are constructible),
`SendCancel` and `SendAdjust` fall through the switch and leave the
whole system state untouched. -/
theorem C10_unknown_scope (s : Sys) (id : Id) (scope : Scope) (e : Err)
    (fn : PMap → PMap)
    (h0 : scope ≠ ScopeNode) (h1 : scope ≠ ScopeSubtree) (h2 : scope ≠ ScopeRoot) :
    SendCancel s id scope e = s ∧ SendAdjust s id scope fn = s := by
  constructor <;> simp [SendCancel, SendAdjust, h0, h1, h2]

/-- Witness for C10 at scope value 5. -/
theorem C10_unknown_scope_witness :
    SendCancel sysInit 0 5 none = sysInit
    ∧ SendAdjust sysInit 0 5 (fun m => m) = sysInit :=
  C10_unknown_scope sysInit 0 5 none (fun m => m) (by decide) (by decide) (by decide)

/- ## Reachable-state consistency of `doneCh` and `state` (for C1) -/

/-- One public operation on the system, as any caller may issue it. -/
inductive Op where
  | background : Op
  | withIntent : Option Id → String → Option PMap → Constraints → Op
  | fulfill : Id → Op
  | abort : Id → Err → Op
  | sendCancel : Id → Scope → Err → Op
  | sendAdjust : Id → Scope → (PMap → PMap) → Op
  | cancelHandle : Id → Op

/-- Apply one operation.  A `withIntent` with a nil parent panics in Go
before touching anything, so the state is unchanged in that case. -/
def applyOp (s : Sys) : Op → Sys
  | .background => (Background s).1
  | .withIntent p name params cons =>
    match WithIntent s p name params cons with
    | .ok r => r.1
    | .error _ => s
  | .fulfill id => fulfillSys s id
  | .abort id e => abortSys s id e
  | .sendCancel id sc e => SendCancel s id sc e
  | .sendAdjust id sc fn => SendAdjust s id sc fn
  | .cancelHandle id => cancelHandle s id

/-- Run a sequence of operations from the empty process state. -/
def runOps (ops : List Op) : Sys := ops.foldl applyOp sysInit

/-- A node's completion channel is closed exactly when its state has
left "active". -/
def nodeConsistent (n : Node) : Bool := n.doneCh == decide (n.state ≠ "active")

/-- Every registered node has its completion channel consistent with
its state. -/
def sysConsistent (s : Sys) : Bool := s.reg.all nodeConsistent

/-- `Fulfill` keeps a node consistent. -/
theorem nodeConsistent_fulfill (n : Node) (h : nodeConsistent n = true) :
    nodeConsistent (fulfillNode n) = true := by
  unfold fulfillNode
  split
  · rfl
  · exact h

/-- `Abort` keeps a node consistent. -/
theorem nodeConsistent_abort (e : Err) (n : Node) (h : nodeConsistent n = true) :
    nodeConsistent (abortNode e n) = true := by
  unfold abortNode
  split
  · rfl
  · exact h

/-- Mapping a consistency-preserving update over selected nodes of a
consistent list keeps it consistent. -/
theorem all_update (l : List Node) (id : Id) (f : Node → Node)
    (hf : ∀ n, nodeConsistent n = true → nodeConsistent (f n) = true)
    (h : l.all nodeConsistent = true) :
    (l.map (fun n => if n.id = id then f n else n)).all nodeConsistent = true := by
  simp only [List.all_eq_true] at *
  intro n hn
  simp only [List.mem_map] at hn
  obtain ⟨m, hm, rfl⟩ := hn
  split
  · exact hf m (h m hm)
  · exact h m hm

/-- Updating one node with a consistency-preserving function preserves
system consistency. -/
theorem sysConsistent_updateNode (s : Sys) (id : Id) (f : Node → Node)
    (hf : ∀ n, nodeConsistent n = true → nodeConsistent (f n) = true)
    (h : sysConsistent s = true) : sysConsistent (updateNode s id f) = true := by
  simp only [sysConsistent, updateNode]
  exact all_update s.reg id f hf h

/-- `Fulfill` on the system preserves consistency. -/
theorem sysConsistent_fulfillSys (s : Sys) (id : Id)
    (h : sysConsistent s = true) : sysConsistent (fulfillSys s id) = true :=
  sysConsistent_updateNode s id fulfillNode nodeConsistent_fulfill h

/-- `Abort` on the system preserves consistency. -/
theorem sysConsistent_abortSys (s : Sys) (id : Id) (e : Err)
    (h : sysConsistent s = true) : sysConsistent (abortSys s id e) = true :=
  sysConsistent_updateNode s id (abortNode e) (nodeConsistent_abort e) h

/-- A fold whose every step preserves a property preserves it. -/
theorem foldl_preserve {α : Type} (P : Sys → Prop) (f : Sys → α → Sys)
    (hf : ∀ s a, P s → P (f s a)) (l : List α) (s : Sys) (h : P s) :
    P (l.foldl f s) := by
  induction l generalizing s with
  | nil => exact h
  | cons a rest ih => exact ih (f s a) (hf s a h)

/-- Recursive subtree abort preserves consistency. -/
theorem sysConsistent_abortRecursive (fuel : Nat) :
    ∀ (s : Sys) (id : Id) (e : Err), sysConsistent s = true →
      sysConsistent (abortRecursiveFuel fuel s id e) = true := by
  induction fuel with
  | zero =>
    intro s id e h
    simpa [abortRecursiveFuel] using h
  | succ k ih =>
    intro s id e h
    unfold abortRecursiveFuel
    apply foldl_preserve (fun s => sysConsistent s = true) _
      (fun s' cid h' => ih s' cid e h')
    split
    · exact sysConsistent_abortSys s id e h
    · exact h

/-- `SendCancel` preserves consistency at every scope value. -/
theorem sysConsistent_sendCancel (s : Sys) (id : Id) (sc : Scope) (e : Err)
    (h : sysConsistent s = true) : sysConsistent (SendCancel s id sc e) = true := by
  unfold SendCancel
  split
  · exact sysConsistent_abortSys s id e h
  · split
    · exact sysConsistent_abortRecursive _ s id e h
    · split
      · exact sysConsistent_abortRecursive _ s _ e h
      · exact h

/-- `applyAdjust` preserves consistency: it touches only the heap and a
node's intent, never `state` or `doneCh`. -/
theorem sysConsistent_applyAdjust (s : Sys) (id : Id) (fn : PMap → PMap)
    (h : sysConsistent s = true) : sysConsistent (applyAdjust s id fn) = true := by
  unfold applyAdjust
  split
  · exact h
  · split
    · exact h
    · simp only [sysConsistent, updateNode]
      apply all_update
      · exact fun m hm => hm
      · exact h

/-- Recursive subtree adjust preserves consistency. -/
theorem sysConsistent_adjustRecursive (fuel : Nat) :
    ∀ (s : Sys) (id : Id) (fn : PMap → PMap), sysConsistent s = true →
      sysConsistent (adjustRecursiveFuel fuel s id fn) = true := by
  induction fuel with
  | zero =>
    intro s id fn h
    simpa [adjustRecursiveFuel] using h
  | succ k ih =>
    intro s id fn h
    unfold adjustRecursiveFuel
    apply foldl_preserve (fun s => sysConsistent s = true) _
      (fun s' cid h' => ih s' cid fn h')
    exact sysConsistent_applyAdjust s id fn h

/-- `SendAdjust` preserves consistency at every scope value. -/
theorem sysConsistent_sendAdjust (s : Sys) (id : Id) (sc : Scope) (fn : PMap → PMap)
    (h : sysConsistent s = true) : sysConsistent (SendAdjust s id sc fn) = true := by
  unfold SendAdjust
  split
  · exact sysConsistent_applyAdjust s id fn h
  · split
    · exact sysConsistent_adjustRecursive _ s id fn h
    · split
      · exact sysConsistent_adjustRecursive _ s _ fn h
      · exact h

/-- A fresh root keeps the system consistent. -/
theorem sysConsistent_background (s : Sys)
    (h : sysConsistent s = true) : sysConsistent (Background s).1 = true := by
  simp only [sysConsistent, Background, List.all_append, Bool.and_eq_true] at *
  exact ⟨h, rfl⟩

/-- A derivation keeps the system consistent: the new child starts
active with an open channel, and the parent update touches only its
children list. -/
theorem sysConsistent_withIntent (s : Sys) (p : Option Id) (name : String)
    (params : Option PMap) (cons : Constraints) (h : sysConsistent s = true) :
    sysConsistent (match WithIntent s p name params cons with
      | .ok r => r.1
      | .error _ => s) = true := by
  cases p with
  | none => exact h
  | some pid =>
    cases hp : getNode s pid with
    | none =>
      simp only [WithIntent, hp]
      exact h
    | some pnode =>
      simp only [WithIntent, hp]
      simp only [sysConsistent, updateNode]
      apply all_update
      · exact fun m hm => hm
      · simp only [List.all_append, Bool.and_eq_true]
        exact ⟨h, rfl⟩

/-- Every public operation preserves consistency. -/
theorem sysConsistent_applyOp (s : Sys) (op : Op) (h : sysConsistent s = true) :
    sysConsistent (applyOp s op) = true := by
  cases op with
  | background => exact sysConsistent_background s h
  | withIntent p name params cons => exact sysConsistent_withIntent s p name params cons h
  | fulfill id => exact sysConsistent_fulfillSys s id h
  | abort id e => exact sysConsistent_abortSys s id e h
  | sendCancel id sc e => exact sysConsistent_sendCancel s id sc e h
  | sendAdjust id sc fn => exact sysConsistent_sendAdjust s id sc fn h
  | cancelHandle id => exact sysConsistent_updateNode s id _ (fun m hm => hm) h

/-- C1 (amended): the explicit lifecycle paths (Fulfill, Abort and
scoped cancellation) keep every node's own completion channel
consistent with its state — in every state reachable by any sequence of
public operations, `doneCh` is closed exactly when `state` has left
"active".  The underlying base signal is not coupled back into `state`:
release-handle cancellation (and likewise a parent base-signal cascade
or deadline expiry) can fire it while `state` stays "active". -/
theorem C1_doneCh_state_consistent (ops : List Op) :
    sysConsistent (runOps ops) = true := by
  unfold runOps
  exact foldl_preserve (fun s => sysConsistent s = true) applyOp
    sysConsistent_applyOp ops sysInit rfl

end Ccx
